import Mathlib

/-!
# Mandelbrot renderer: escape-time evaluator and view controller

A shallow embedding of `src/Main.cpp`:

* the fragment shader `fragmentShaderSource` (lines 26-54), the per-pixel escape-time evaluator;
* the keyboard handler `processInput` (lines 140-154) and the render loop of `main`
  (lines 105-131), which own the view state `zoom`, `offsetX`, `offsetY`.

Numbers.  The program computes in `float`.  Here a `float` is an element of a linear ordered
field `K` and the arithmetic is exact: the definitions run on `ℚ` and are reasoned about on `ℝ`.
Rounding, overflow and NaN are not modelled.  The loop counter `float i` only takes the values
`0, 1, ..., 1000`, so it is a `ℕ` that is cast to `K` where the shader does arithmetic with it.
The GLSL builtin `log2` is a parameter `log2 : K → K` of the definitions that use it; the
theorems about logarithms instantiate it with `Real.logb 2`.
-/

namespace Mandelbrot

variable {K : Type*} [LinearOrderedField K]

/-! ## Fragment shader -/

/-- The shader constant `int maxIterations = 1000;` (line 35). -/
def maxIterations : ℕ := 1000

/-- GLSL `dot` on `vec2`. -/
def dot (a b : K × K) : K := a.1 * b.1 + a.2 * b.2

/-- Line 38: `z = vec2(z.x*z.x - z.y*z.y + c.x, 2.0*z.x*z.y + c.y);`. -/
def step (c z : K × K) : K × K :=
  (z.1 * z.1 - z.2 * z.2 + c.1, 2 * z.1 * z.2 + c.2)

/-- Lines 37-40, the loop entered with counter `i` and point `z`:
`for (...; i < float(maxIterations); i++) { z = ...; if (dot(z, z) > 4.0) break; }`.
The result is the pair of `i` and `z` when the loop is left. -/
def escapeLoop (c : K × K) (i : ℕ) (z : K × K) : ℕ × (K × K) :=
  if i < maxIterations then
    let z' := step c z
    if dot z' z' > 4 then (i, z') else escapeLoop c (i + 1) z'
  else (i, z)
termination_by maxIterations - i
decreasing_by
  simp_wf
  omega

/-- The loop as the shader runs it (lines 34-40): `z = vec2(0.0, 0.0)` and `i = 0.0`. -/
def escapeResult (c : K × K) : ℕ × (K × K) := escapeLoop c 0 (0, 0)

/-- The value of `i` after the loop. -/
def escapeCount (c : K × K) : ℕ := (escapeResult c).1

/-- The value of `z` after the loop. -/
def finalZ (c : K × K) : K × K := (escapeResult c).2

/-- Line 43: `float smoothed = i - log2(log2(dot(z,z))) + 4.0;`. -/
def smoothed (log2 : K → K) (i : ℕ) (z : K × K) : K :=
  (i : K) - log2 (log2 (dot z z)) + 4

/-- Line 44: `float colorValue = smoothed / float(maxIterations);`. -/
def colorValue (log2 : K → K) (i : ℕ) (z : K × K) : K :=
  smoothed log2 i z / (maxIterations : K)

/-- Lines 34-53 for a given `c`: the loop, the smooth colouring, the override
`if (i == float(maxIterations)) color = vec3(0.0);` and `FragColor = vec4(color, 1.0)`.
The result is `(r, g, b, a)`. -/
def shade (log2 : K → K) (c : K × K) : K × K × K × K :=
  let r := escapeLoop c 0 (0, 0)
  let i := r.1
  let z := r.2
  let color : K × K × K := (0, colorValue log2 i z, 0)
  let color : K × K × K := if i = maxIterations then (0, 0, 0) else color
  (color.1, color.2.1, color.2.2, 1)

/-- The iterates of the specification, `z_0 = (0,0)` and `z_(k+1) = z_k^2 + c`. -/
def orbit (c : K × K) (k : ℕ) : K × K := (step c)^[k] (0, 0)

/-- The specification's escape test at index `k`: `|z_(k+1)|^2 > 4`. -/
def escapesAt (c : K × K) (k : ℕ) : Prop := 4 < dot (orbit c (k + 1)) (orbit c (k + 1))

theorem escapeLoop_unfold (c : K × K) (i : ℕ) (z : K × K) :
    escapeLoop c i z =
      if i < maxIterations then
        (if dot (step c z) (step c z) > 4 then (i, step c z)
         else escapeLoop c (i + 1) (step c z))
      else (i, z) := by
  rw [escapeLoop]

theorem orbit_zero (c : K × K) : orbit c 0 = (0, 0) := rfl

theorem orbit_succ (c : K × K) (k : ℕ) : orbit c (k + 1) = step c (orbit c k) := by
  simp only [orbit, Function.iterate_succ_apply']

/-- Everything the loop guarantees when it is entered with counter `i` at the `i`-th iterate:
it leaves with a counter between `i` and `maxIterations`, no escape was seen at the indices it
passed, and it either stopped at an escape or ran out of iterations. -/
theorem escapeLoop_spec (c : K × K) (m i : ℕ) (hm : i + m = maxIterations) :
    i ≤ (escapeLoop c i (orbit c i)).1 ∧
    (escapeLoop c i (orbit c i)).1 ≤ maxIterations ∧
    (∀ k, i ≤ k → k < (escapeLoop c i (orbit c i)).1 → ¬ escapesAt c k) ∧
    ((escapeLoop c i (orbit c i)).1 < maxIterations →
      escapesAt c (escapeLoop c i (orbit c i)).1 ∧
      (escapeLoop c i (orbit c i)).2 = orbit c ((escapeLoop c i (orbit c i)).1 + 1)) ∧
    ((escapeLoop c i (orbit c i)).1 = maxIterations →
      (escapeLoop c i (orbit c i)).2 = orbit c maxIterations) := by
  induction m generalizing i with
  | zero =>
    have hi : i = maxIterations := by omega
    rw [escapeLoop_unfold, if_neg (by omega)]
    refine ⟨le_refl _, by simp only; omega, ?_, ?_, ?_⟩
    · intro k h1 h2
      simp only at h2
      omega
    · intro h
      simp only at h
      omega
    · intro _
      simp only [hi]
  | succ m ih =>
    have hi : i < maxIterations := by omega
    rw [escapeLoop_unfold, if_pos hi, ← orbit_succ]
    by_cases hesc : dot (orbit c (i + 1)) (orbit c (i + 1)) > 4
    · rw [if_pos hesc]
      refine ⟨le_refl _, le_of_lt hi, ?_, ?_, ?_⟩
      · intro k h1 h2
        simp only at h2
        omega
      · intro _
        exact ⟨hesc, rfl⟩
      · intro h
        simp only at h
        omega
    · rw [if_neg hesc]
      obtain ⟨h1, h2, h3, h4, h5⟩ := ih (i + 1) (by omega)
      refine ⟨by omega, h2, ?_, h4, h5⟩
      intro k hk1 hk2
      by_cases hki : k = i
      · subst hki
        exact hesc
      · exact h3 k (by omega) hk2

/-- The loop stops at the least index at which the orbit escapes. -/
theorem escapeResult_of_least (c : K × K) (k : ℕ) (hk : k < maxIterations)
    (hesc : escapesAt c k) (hleast : ∀ j, j < k → ¬ escapesAt c j) :
    escapeResult c = (k, orbit c (k + 1)) := by
  obtain ⟨_, _, h3, h4, _⟩ := escapeLoop_spec c maxIterations 0 (by omega)
  rw [orbit_zero] at h3 h4
  have hlt : (escapeLoop c 0 (0, 0)).1 < maxIterations := by
    by_contra hge
    exact h3 k (Nat.zero_le k) (by omega) hesc
  obtain ⟨hE, hz⟩ := h4 hlt
  have hik : (escapeLoop c 0 (0, 0)).1 = k := by
    rcases Nat.lt_trichotomy (escapeLoop c 0 (0, 0)).1 k with h | h | h
    · exact absurd hE (hleast _ h)
    · exact h
    · exact absurd hesc (h3 k (Nat.zero_le k) h)
  unfold escapeResult
  rw [Prod.ext_iff]
  refine ⟨?_, ?_⟩
  · simp only [hik]
  · simp only [hz, hik]

theorem shade_of_count_ne_max (log2 : K → K) (c : K × K)
    (h : (escapeLoop c 0 (0, 0)).1 ≠ maxIterations) :
    shade log2 c =
      (0, colorValue log2 (escapeLoop c 0 (0, 0)).1 (escapeLoop c 0 (0, 0)).2, 0, 1) := by
  simp only [shade, h, if_false]

theorem log2_two_pow (n : ℕ) : Real.logb 2 ((2 : ℝ) ^ n) = n := by
  rw [Real.logb_pow, Real.logb_self_eq_one (by norm_num), mul_one]

theorem lt_log2 (n : ℕ) {x : ℝ} (h : (2 : ℝ) ^ n < x) : (n : ℝ) < Real.logb 2 x := by
  rw [← log2_two_pow n]
  exact Real.logb_lt_logb (by norm_num) (by positivity) h

theorem step_origin (c : K × K) : step c (0, 0) = c := by
  simp only [step, mul_zero, sub_zero, zero_add]

theorem escapeLoop_immediate (c : K × K) (h : 4 < dot c c) : escapeLoop c 0 (0, 0) = (0, c) := by
  rw [escapeLoop_unfold, if_pos (by simp [maxIterations]), step_origin, if_pos h]

theorem shade_immediate (log2 : K → K) (c : K × K) (h : 4 < dot c c) :
    shade log2 c = (0, (4 - log2 (log2 (dot c c))) / 1000, 0, 1) := by
  rw [shade_of_count_ne_max log2 c (by rw [escapeLoop_immediate c h]; simp [maxIterations]),
    escapeLoop_immediate c h]
  simp only [colorValue, smoothed, maxIterations, Nat.cast_zero, zero_sub, Nat.cast_ofNat]
  rw [neg_add_eq_sub]

/-- When the loop is left through `break`, the final `z` has `|z|^2 > 4`. -/
theorem dot_finalZ_gt_of_escaped (c : K × K) (h : escapeCount c < maxIterations) :
    4 < dot (finalZ c) (finalZ c) := by
  obtain ⟨_, _, _, h4, _⟩ := escapeLoop_spec c maxIterations 0 (by omega)
  rw [orbit_zero] at h4
  obtain ⟨hE, hz⟩ := h4 h
  simp only [finalZ, escapeResult, hz]
  exact hE

theorem log2_gt_two_of_gt_four {x : ℝ} (h : 4 < x) : 2 < Real.logb 2 x := by
  have := lt_log2 2 (x := x) (by norm_num; exact h)
  push_cast at this
  exact this

theorem log2_log2_gt_one_of_gt_four {x : ℝ} (h : 4 < x) :
    1 < Real.logb 2 (Real.logb 2 x) := by
  have := lt_log2 1 (x := Real.logb 2 x) (by norm_num; exact log2_gt_two_of_gt_four h)
  push_cast at this
  exact this

/-- C10. For every `c`, when the loop is left through `break` (`i < 1000`), the final `z` has
`|z|^2 > 4`, hence `log2(|z|^2) > 1` and `log2(log2(|z|^2)) > 0`: both logarithms of
`smoothed` are taken at positive arguments (`|z|^2 > 0` and `log2(|z|^2) > 0`). -/
theorem smoothing_well_defined (c : ℝ × ℝ) (h : escapeCount c < maxIterations) :
    4 < dot (finalZ c) (finalZ c) ∧
    1 < Real.logb 2 (dot (finalZ c) (finalZ c)) ∧
    0 < Real.logb 2 (Real.logb 2 (dot (finalZ c) (finalZ c))) := by
  have h4 := dot_finalZ_gt_of_escaped c h
  refine ⟨h4, ?_, ?_⟩
  · linarith [log2_gt_two_of_gt_four h4]
  · linarith [log2_log2_gt_one_of_gt_four h4]

/-- C10 at `c = (3, 3)`, which leaves the loop through `break` at `i = 0`. -/
theorem smoothing_well_defined_witness :
    escapeCount ((3, 3) : ℝ × ℝ) < maxIterations ∧
    1 < Real.logb 2 (dot (finalZ ((3, 3) : ℝ × ℝ)) (finalZ ((3, 3) : ℝ × ℝ))) ∧
    0 < Real.logb 2 (Real.logb 2 (dot (finalZ ((3, 3) : ℝ × ℝ)) (finalZ ((3, 3) : ℝ × ℝ)))) := by
  have h3 : 4 < dot ((3, 3) : ℝ × ℝ) (3, 3) := by simp only [dot]; norm_num
  have hlt : escapeCount ((3, 3) : ℝ × ℝ) < maxIterations := by
    simp only [escapeCount, escapeResult, escapeLoop_immediate _ h3, maxIterations]
    norm_num
  exact ⟨hlt, (smoothing_well_defined _ hlt).2⟩

/-! ## View controller: one frame -/

theorem shade_green_of_escaped (log2 : K → K) (c : K × K) (h : escapeCount c < maxIterations) :
    (shade log2 c).2.1 = colorValue log2 (escapeCount c) (finalZ c) := by
  rw [shade_of_count_ne_max log2 c (ne_of_lt h)]
  rfl

theorem escapeResult_two : escapeResult ((2, 0) : ℝ × ℝ) = (1, (6, 0)) := by
  have h1 : orbit ((2, 0) : ℝ × ℝ) 1 = (2, 0) := by
    rw [orbit_succ, orbit_zero, step_origin]
  have h2 : orbit ((2, 0) : ℝ × ℝ) (1 + 1) = (6, 0) := by
    rw [orbit_succ, h1]
    simp only [step, Prod.mk.injEq]
    constructor <;> norm_num
  rw [← h2]
  apply escapeResult_of_least _ 1 (by simp [maxIterations])
  · rw [escapesAt, h2]
    simp only [dot]
    norm_num
  · intro j hj
    have hj0 : j = 0 := by omega
    rw [hj0, escapesAt, h1]
    simp only [dot]
    norm_num

theorem shade_green_two :
    (shade (Real.logb 2) ((2, 0) : ℝ × ℝ)).2.1 = (4 - Real.logb 2 (Real.logb 2 6)) / 1000 := by
  have hlt : escapeCount ((2, 0) : ℝ × ℝ) < maxIterations := by
    simp only [escapeCount, escapeResult_two, maxIterations]
    norm_num
  rw [shade_green_of_escaped _ _ hlt]
  simp only [escapeCount, finalZ, escapeResult_two, colorValue, smoothed, maxIterations, dot]
  have h36 : (6 : ℝ) * 6 + 0 * 0 = 6 * 6 := by norm_num
  have h6 : (0 : ℝ) < Real.logb 2 6 := Real.logb_pos (by norm_num) (by norm_num)
  rw [h36, Real.logb_mul (by norm_num) (by norm_num), ← two_mul,
    Real.logb_mul (by norm_num) (ne_of_gt h6), Real.logb_self_eq_one (by norm_num)]
  push_cast
  ring

theorem log2_log2_five_lt : Real.logb 2 (Real.logb 2 5) < Real.logb 2 (Real.logb 2 6) := by
  have h5 : (0 : ℝ) < Real.logb 2 5 := Real.logb_pos (by norm_num) (by norm_num)
  exact Real.logb_lt_logb (by norm_num) h5
    (Real.logb_lt_logb (by norm_num) (by norm_num) (by norm_num))

/-- Just outside the circle `|c|^2 = 4` the green component stays a fixed distance above its
value at `c = (2, 0)`. -/
theorem green_gap_near_two (c : ℝ × ℝ) (h4 : 4 < dot c c) (h5 : dot c c < 5) :
    (shade (Real.logb 2) ((2, 0) : ℝ × ℝ)).2.1 +
        (Real.logb 2 (Real.logb 2 6) - Real.logb 2 (Real.logb 2 5)) / 1000 ≤
      (shade (Real.logb 2) c).2.1 := by
  rw [shade_green_two, shade_immediate _ c h4]
  have hlog : Real.logb 2 (dot c c) < Real.logb 2 5 :=
    Real.logb_lt_logb (by norm_num) (by linarith) h5
  have hpos : 0 < Real.logb 2 (dot c c) := by linarith [log2_gt_two_of_gt_four h4]
  have hh : Real.logb 2 (Real.logb 2 (dot c c)) < Real.logb 2 (Real.logb 2 5) :=
    Real.logb_lt_logb (by norm_num) hpos hlog
  simp only
  rw [← add_div]
  apply div_le_div_of_nonneg_right _ (by norm_num)
  linarith

theorem continuous_dot_self : Continuous (fun c : ℝ × ℝ => dot c c) := by
  unfold dot
  exact (continuous_fst.mul continuous_fst).add (continuous_snd.mul continuous_snd)

theorem two_mem_closure_outside :
    ((2, 0) : ℝ × ℝ) ∈ closure {c : ℝ × ℝ | 4 < dot c c} := by
  rw [Metric.mem_closure_iff]
  intro ε hε
  refine ⟨(2 + ε / 2, 0), ?_, ?_⟩
  · simp only [Set.mem_setOf_eq, dot]
    nlinarith
  · rw [Prod.dist_eq]
    simp only [Real.dist_eq, sub_self, abs_zero]
    have : |(2 : ℝ) - (2 + ε / 2)| = ε / 2 := by
      rw [show (2 : ℝ) - (2 + ε / 2) = -(ε / 2) by ring, abs_neg, abs_of_pos (by linarith)]
    rw [this]
    simp only [max_lt_iff]
    constructor <;> linarith

/-- C9 fails at `c0 = (2, 0)`.  There `|c0|^2 = 4` is not `> 4`, the loop stops at `i = 1`
with `|z|^2 = 36`, and the green component is `(4 - log2(log2 6)) / 1000`.  For `c` outside
the circle the loop stops at `i = 0` and green is `(4 - log2(log2 |c|^2)) / 1000`, which
tends to `3 / 1000` as `c` tends to `c0`.  So green does not tend to its value at `c0` as
`c` tends to `c0` from outside the circle. -/
theorem smoothing_jump_at_two :
    ¬ Filter.Tendsto (fun c : ℝ × ℝ => (shade (Real.logb 2) c).2.1)
        (nhdsWithin ((2, 0) : ℝ × ℝ) {c : ℝ × ℝ | 4 < dot c c})
        (nhds (shade (Real.logb 2) ((2, 0) : ℝ × ℝ)).2.1) := by
  intro hT
  have hδ : 0 < (Real.logb 2 (Real.logb 2 6) - Real.logb 2 (Real.logb 2 5)) / 1000 :=
    div_pos (by linarith [log2_log2_five_lt]) (by norm_num)
  have h1 : ∀ᶠ c in nhdsWithin ((2, 0) : ℝ × ℝ) {c : ℝ × ℝ | 4 < dot c c},
      (shade (Real.logb 2) c).2.1 <
        (shade (Real.logb 2) ((2, 0) : ℝ × ℝ)).2.1 +
          (Real.logb 2 (Real.logb 2 6) - Real.logb 2 (Real.logb 2 5)) / 1000 :=
    hT.eventually (eventually_lt_nhds (by linarith))
  have h2 : ∀ᶠ c in nhdsWithin ((2, 0) : ℝ × ℝ) {c : ℝ × ℝ | 4 < dot c c}, 4 < dot c c :=
    eventually_nhdsWithin_of_forall (fun c hc => hc)
  have h3 : ∀ᶠ c in nhdsWithin ((2, 0) : ℝ × ℝ) {c : ℝ × ℝ | 4 < dot c c}, dot c c < 5 := by
    apply eventually_nhdsWithin_of_eventually_nhds
    apply continuous_dot_self.continuousAt.eventually (eventually_lt_nhds _)
    simp only [dot]
    norm_num
  have hfalse : ∀ᶠ _c in nhdsWithin ((2, 0) : ℝ × ℝ) {c : ℝ × ℝ | 4 < dot c c}, False := by
    filter_upwards [h1, h2, h3] with c hc1 hc2 hc3
    linarith [green_gap_near_two c hc2 hc3]
  have hne : (nhdsWithin ((2, 0) : ℝ × ℝ) {c : ℝ × ℝ | 4 < dot c c}).NeBot :=
    mem_closure_iff_nhdsWithin_neBot.mp two_mem_closure_outside
  rw [Filter.eventually_false_iff_eq_bot] at hfalse
  exact hne.ne hfalse

end Mandelbrot
